import Mathlib

/-!
Verification development for the `cyclo` complexity-visualization tool.

The embedding models `src/cyclo/file_parser.rs` and `src/cyclo/main.rs`.
Pure text scanning becomes functions on `List String`; the per-run mutable
vectors (`nlocs`, `ccs`, `labels`, `parents`) become an explicit state
record threaded through a fold over the walker's entry sequence.  Rust
`f64` complexity values are modelled as `ℚ` (the values produced are
integer counts cast once, so rationals are a faithful carrier).  The
external `tokei` line-statistics call is modelled as an oracle field on
each entry holding the map entry the service produces for the file's
classified language, `none` when it produces no entry; the
classifier-driven match around it, including the map index that panics
when the entry is absent, is embedded from the source
(`get_file_nloc_run`), and `processEntriesTotal` propagates that panic
as a whole-run abort.

Each walker entry is represented by the last `depth + 1` components of
its path (the source only ever slices `full_path[len-depth-1..]`, so the
components of the analysis root's own prefix never influence any label
or parent; for a multi-component root the trailing-slice of the root
prefix joins to the empty string exactly as the `is_empty` branch does).
-/

namespace Cyclo

/-- Substring test, Rust `str::contains` with a literal pattern: the
pattern occurs, as a contiguous character run, somewhere in `s`. -/
def containsStr (s pat : String) : Bool :=
  (List.range (s.data.length + 1)).any (fun i => pat.data.isPrefixOf (s.data.drop i))

/-- Rust `str::ends_with` with a literal pattern. -/
def strEndsWith (s pat : String) : Bool := pat.data.isSuffixOf s.data

/-- Language profile: the marker sets built by the `match` in
`get_file_complexity` (file_parser.rs lines 160-187). -/
structure Profile where
  comments : List String
  statements : List String
  logicalOps : List String
  functionDef : String
deriving DecidableEq

/-- Markers for C (file_parser.rs lines 160-166). -/
def cProfile : Profile :=
  ⟨["//", "/*", "*/", "*", "///"],
   ["if(", "if (", "for(", "for (", "while(", "while (", "switch", "break", "goto"],
   ["&&", "||"],
   "return"⟩

/-- Markers for C++ (file_parser.rs lines 167-172), same values as C. -/
def cppProfile : Profile :=
  ⟨["//", "/*", "*/", "*", "///"],
   ["if(", "if (", "for(", "for (", "while(", "while (", "switch", "break", "goto"],
   ["&&", "||"],
   "return"⟩

/-- Markers for Python (file_parser.rs lines 173-179). -/
def pyProfile : Profile :=
  ⟨["#"], ["if", "for", "while", "break"], ["and", "or", "not"], "def "⟩

/-- Markers for JavaScript (file_parser.rs lines 180-186). -/
def jsProfile : Profile :=
  ⟨["//", "*/", "/*"], ["if", "for", "while"], ["&&", "||"], "function"⟩

/-- Profile selection: the language-tag arms of the `match` in
`get_file_complexity`; the wildcard arm (`_ => return None`) is `none`. -/
def scanProfile : String → Option Profile
  | "c" => some cProfile
  | "cpp" => some cppProfile
  | "py" => some pyProfile
  | "js" => some jsProfile
  | _ => none

/-- Rust `filename.rsplit(".").next().unwrap()`: the segment after the
last `.`, or the whole string when no `.` occurs. -/
def rsplitFirstDot (s : String) : String :=
  String.mk ((s.data.reverse.takeWhile (fun c => c != '.')).reverse)

/-- `get_file_extension` (file_parser.rs lines 126-139). -/
def get_file_extension (filename : String) : String :=
  match rsplitFirstDot filename with
  | "c" => "c"
  | "cc" => "cpp"
  | "cxx" => "cpp"
  | "cpp" => "cpp"
  | "py" => "py"
  | "js" => "js"
  | _ => ""

/-- `is_file_extension_valid` (file_parser.rs lines 42-48). -/
def is_file_extension_valid (file : String) : Bool :=
  [".c", ".cpp", ".cc", ".cxx", ".py", ".js"].any (fun n => strEndsWith file n)

/-- `is_hidden` (file_parser.rs lines 51-57), on the entry's file name. -/
def is_hidden (name : String) : Bool := String.isPrefixOf "." name

/-- Lines surviving the comment filter
(`.filter(|x| comments.iter().all(|n| !x.contains(*n)))`). -/
def commentFreeLines (p : Profile) (lines : List String) : List String :=
  lines.filter (fun x => p.comments.all (fun n => ! containsStr x n))

/-- Accumulation of `logical_ops_count` over the comment-filtered stream:
`for item in &logical_ops { logical_ops_count += if x.contains(item) { 1 } else { 0 } }`. -/
def logical_ops_count (p : Profile) (lines : List String) : Nat :=
  (commentFreeLines p lines).foldl
    (fun acc x => p.logicalOps.foldl (fun a item => a + (if containsStr x item then 1 else 0)) acc) 0

/-- Accumulation of `function_count` over the comment-filtered stream. -/
def function_count (p : Profile) (lines : List String) : Nat :=
  (commentFreeLines p lines).foldl
    (fun acc x => acc + (if containsStr x p.functionDef then 1 else 0)) 0

/-- `valid_lines`: comment-free lines that contain some statement marker
(`.filter(|s| statements.iter().any(|n| s.contains(*n)))`). -/
def valid_lines (p : Profile) (lines : List String) : List String :=
  (commentFreeLines p lines).filter (fun s => p.statements.any (fun n => containsStr s n))

/-- `complexity_count = valid_lines.len() + logical_ops_count`
(file_parser.rs lines 223-224). -/
def complexity_count (p : Profile) (lines : List String) : Nat :=
  (valid_lines p lines).length + logical_ops_count p lines

/-- Body of `get_file_complexity` after profile selection
(file_parser.rs lines 190-238).  `mean_complexity` mirrors the dead
computation at lines 226-235; the returned value is the raw
`complexity_count as f64` of line 238. -/
def fileComplexityWith (p : Profile) (lines : List String) : ℚ :=
  let cc := complexity_count p lines
  let fc := function_count p lines
  let mean_complexity : ℚ := if fc = 0 then 0 else (cc : ℚ) / (fc : ℚ)
  (cc : ℚ)

/-- `get_file_complexity` (file_parser.rs lines 150-239). -/
def get_file_complexity (filename : String) (lines : List String) : Option ℚ :=
  match scanProfile (get_file_extension filename) with
  | some p => some (fileComplexityWith p lines)
  | none => none

/-- One walker entry: the last `depth + 1` path components (head is the
topmost analyzed ancestor, last is the file name), the file's text
lines, and the line count the external `tokei` statistics service
attributes to the file's classified language (`none`: no data). -/
structure Entry where
  relPath : List String
  lines : List String
  nloc : Option Nat
deriving DecidableEq

/-- `entry.file_name()` for a file entry: the final path component. -/
def filename (e : Entry) : String := e.relPath.getLastD ""

/-- `entry.depth()`: number of directory levels below the analysis root. -/
def entryDepth (e : Entry) : Nat := e.relPath.length - 1

/-- A Rust panic — a process abort, here from indexing the statistics
`BTreeMap` at a key it does not hold. -/
inductive RustPanic where
  | mapIndexPanic
deriving DecidableEq

/-- `get_file_nloc` (file_parser.rs lines 242-273) with the effect of the
`&languages[&LanguageType::…]` index made explicit: for a recognized
language the match arm is `Some(lang.code)`, where obtaining `lang`
demands the map's entry for that language — present when the service
attributed a count (`e.nloc = some code`), and a panic (process abort,
modelled as `Except.error`) when it did not; only the
unrecognized-extension wildcard arm returns `None`. -/
def get_file_nloc_run (e : Entry) : Except RustPanic (Option Nat) :=
  match get_file_extension (filename e) with
  | "c" =>
    match e.nloc with
    | some code => Except.ok (some code)
    | none => Except.error RustPanic.mapIndexPanic
  | "cpp" =>
    match e.nloc with
    | some code => Except.ok (some code)
    | none => Except.error RustPanic.mapIndexPanic
  | "py" =>
    match e.nloc with
    | some code => Except.ok (some code)
    | none => Except.error RustPanic.mapIndexPanic
  | "js" =>
    match e.nloc with
    | some code => Except.ok (some code)
    | none => Except.error RustPanic.mapIndexPanic
  | _ => Except.ok none

/-- The value `get_file_nloc` yields on the executions that return at
all (a panicking execution produces no value; it is collapsed to `none`
here only so the non-panicking pipeline below keeps its plain `Option`
shape — every theorem below either assumes the analysis succeeded,
`okEntry`, or goes through `processEntriesTotal`, which propagates the
panic faithfully). -/
def get_file_nloc (e : Entry) : Option Nat :=
  match get_file_nloc_run e with
  | Except.ok r => r
  | Except.error _ => none

/-- `FileParserError` (file_parser.rs lines 14-19). -/
inductive FileParserError where
  | badFileExtension (file : String)
deriving DecidableEq

/-- Fields set by a successful `file_walk`. -/
structure WalkResult where
  cc : ℚ
  nloc : Nat
  label : String
  parent : String
deriving DecidableEq

/-- Rust `Vec<&str>::join("/")`. -/
def joinPath : List String → String
  | [] => ""
  | [x] => x
  | x :: y :: ys => x ++ "/" ++ joinPath (y :: ys)

/-- `file_walk` (file_parser.rs lines 79-123): complexity, then nloc
(each `None` mapped to `BadFileExtension`), then the label is the join
of the last `depth + 1` components and the parent the same join after
popping the file name. -/
def file_walk (e : Entry) : Except FileParserError WalkResult :=
  match get_file_complexity (filename e) e.lines with
  | some c =>
    match get_file_nloc e with
    | some n => Except.ok ⟨c, n, joinPath e.relPath, joinPath e.relPath.dropLast⟩
    | none => Except.error (FileParserError.badFileExtension (filename e))
  | none => Except.error (FileParserError.badFileExtension (filename e))

/-- The four parallel result vectors owned by `main`. -/
structure St where
  nlocs : List Nat
  ccs : List ℚ
  labels : List String
  parents : List String
deriving DecidableEq

/-- One iteration of the ancestor-materialization loop
(main.rs lines 72-95): if the current join is already a label nothing
changes (the vector is not popped); otherwise a zero directory node is
pushed, the vector popped, and its parent recorded (empty join when
nothing remains). -/
def dirStep (fp : List String) (st : St) : List String × St :=
  if joinPath fp ∈ st.labels then (fp, st)
  else (fp.dropLast,
    ⟨st.nlocs ++ [0], st.ccs ++ [0],
     st.labels ++ [joinPath fp], st.parents ++ [joinPath fp.dropLast]⟩)

/-- `for _ in 0..depth` over `dirStep`. -/
def dirLoop : Nat → List String → St → St
  | 0, _, st => st
  | Nat.succ n, fp, st =>
    let r := dirStep fp st
    dirLoop n r.1 r.2

/-- Per-entry body of the walk loop in `main` (main.rs lines 39-96):
entries failing the extension filter are ignored; a failing `file_walk`
logs and continues; a successful one pushes the file node and then runs
the ancestor loop on the path with the file name popped. -/
def processEntry (st : St) (e : Entry) : St :=
  if is_file_extension_valid (filename e) then
    match file_walk e with
    | Except.ok r =>
      dirLoop (entryDepth e) e.relPath.dropLast
        ⟨st.nlocs ++ [r.nloc], st.ccs ++ [r.cc],
         st.labels ++ [r.label], st.parents ++ [r.parent]⟩
    | Except.error _ => st
  else st

/-- Initial empty vectors (main.rs lines 31-34). -/
def initSt : St := ⟨[], [], [], []⟩

/-- The whole walk (main.rs lines 37-97). -/
def processEntries (es : List Entry) : St := es.foldl processEntry initSt

/-- Per-entry step of the walk with the statistics-map panic propagated:
once the process has aborted nothing further runs.  Otherwise the entry
follows `processEntry`, except that when the complexity succeeded (so
`file_walk` reaches the nloc lookup) and the map lacks the classified
language's entry, the index panics and the whole run aborts —
`file_parser.rs` has no per-file recovery there. -/
def processEntryTotal (acc : Except RustPanic St) (e : Entry) : Except RustPanic St :=
  match acc with
  | Except.error p => Except.error p
  | Except.ok st =>
    if is_file_extension_valid (filename e) then
      match get_file_complexity (filename e) e.lines with
      | some _ =>
        match get_file_nloc_run e with
        | Except.error p => Except.error p
        | Except.ok _ => Except.ok (processEntry st e)
      | none => Except.ok (processEntry st e)
    else Except.ok (processEntry st e)

/-- The whole walk with panics propagated: `Except.ok` exactly on the
executions `processEntries` models. -/
def processEntriesTotal (es : List Entry) : Except RustPanic St :=
  es.foldl processEntryTotal (Except.ok initSt)

/-- The spec's `ConsistencyViolation`: a failed assertion in `main`. -/
inductive MainError where
  | consistencyViolation
deriving DecidableEq

/-- The record handed to the rendering sink. -/
structure Output where
  nlocs : List Nat
  labels : List String
  parents : List String
  ccs : List ℚ
  mean : ℚ
deriving DecidableEq

/-- Tail of `main` (main.rs lines 99-125): the three length assertions,
then inside the write block the `count > 0` assertion, all before the
artifact is produced; a failed assertion aborts with no output. -/
def runMain (es : List Entry) : Except MainError Output :=
  let st := processEntries es
  if st.nlocs.length ≠ st.labels.length then Except.error MainError.consistencyViolation
  else if st.labels.length ≠ st.parents.length then Except.error MainError.consistencyViolation
  else if st.parents.length ≠ st.ccs.length then Except.error MainError.consistencyViolation
  else
    let sum := st.ccs.sum
    let count := st.ccs.length
    if 0 < count then Except.ok ⟨st.nlocs, st.labels, st.parents, st.ccs, sum / (count : ℚ)⟩
    else Except.error MainError.consistencyViolation

/-- A treemap node record: (label, parent, complexity, lines-of-code). -/
abbrev Node := String × String × ℚ × Nat

/-- The node records encoded by the four parallel vectors. -/
def nodes (st : St) : List Node :=
  st.labels.zip (st.parents.zip (st.ccs.zip st.nlocs))

/-! ### Specification-side counting definitions

These restate §4.3 of the spec declaratively, to be compared with the
embedded code. -/

/-- Number of comment-free lines containing at least one
statement/keyword marker as a literal substring (spec step 4/5). -/
def specStatementLineCount (p : Profile) (lines : List String) : Nat :=
  (commentFreeLines p lines).countP (fun s => p.statements.any (fun n => containsStr s n))

/-- Per line, the number of logical-operator markers the line contains
(each marker contributing at most one per line), summed over all
comment-free lines. -/
def specOpPresenceTotal (p : Profile) (lines : List String) : Nat :=
  ((commentFreeLines p lines).map
    (fun x => (p.logicalOps.filter (fun m => containsStr x m)).length)).sum

/-- Number of literal-substring occurrences of `pat` in `s`: the number
of character positions at which `pat` starts. -/
def occCount (pat s : String) : Nat :=
  (List.range (s.data.length + 1)).countP (fun i => pat.data.isPrefixOf (s.data.drop i))

/-- Total number of literal-substring occurrences of logical-operator
markers, summed across markers and comment-free lines — the count the
claim attributes to step 3a (a marker occurring twice in a line counts
twice). -/
def specOpOccurrenceTotal (p : Profile) (lines : List String) : Nat :=
  ((commentFreeLines p lines).map
    (fun x => (p.logicalOps.map (fun m => occCount m x)).sum)).sum

/-! ### Concrete example entries -/

/-- `proj/a.c`, ten `if (` lines: complexity 10, service count 12. -/
def eA : Entry := ⟨["proj", "a.c"], List.replicate 10 "if (x)", some 12⟩

/-- `proj/sub/b.py`, four `if` lines: complexity 4, service count 5. -/
def eB : Entry := ⟨["proj", "sub", "b.py"], List.replicate 4 "if x:", some 5⟩

/-- A classified file (`bad.c`, language `c`) for which the statistics
map holds no entry: the nloc lookup panics on it. -/
def eBad : Entry := ⟨["proj", "bad.c"], [], none⟩

/-- A file the classifier cannot map (`noext` has no recognized
extension): the estimator returns `None` and the file is skipped. -/
def eX : Entry := ⟨["proj", "noext"], [], some 1⟩

/-! ### The estimator returns kept-line count plus per-marker-per-line
operator presence -/

lemma foldl_presence (ms : List String) (x : String) (acc : Nat) :
    ms.foldl (fun a item => a + (if containsStr x item then 1 else 0)) acc
      = acc + (ms.filter (fun m => containsStr x m)).length := by
  induction ms generalizing acc with
  | nil => simp
  | cons m ms ih =>
    by_cases h : containsStr x m
    · simp [List.filter_cons, h, ih]; omega
    · simp [List.filter_cons, h, ih]

lemma logical_ops_count_eq_presence (p : Profile) (lines : List String) :
    logical_ops_count p lines = specOpPresenceTotal p lines := by
  unfold logical_ops_count specOpPresenceTotal
  generalize commentFreeLines p lines = ls
  suffices h : ∀ acc : Nat, ls.foldl
      (fun acc x => p.logicalOps.foldl (fun a item => a + (if containsStr x item then 1 else 0)) acc) acc
      = acc + ((ls.map (fun x => (p.logicalOps.filter (fun m => containsStr x m)).length)).sum) by
    simpa using h 0
  induction ls with
  | nil => simp
  | cons x ls ih =>
    intro acc
    rw [List.foldl_cons, ih]
    simp only [List.map_cons, List.sum_cons, foldl_presence]
    omega

lemma valid_lines_length_eq (p : Profile) (lines : List String) :
    (valid_lines p lines).length = specStatementLineCount p lines := by
  unfold valid_lines specStatementLineCount
  rw [List.countP_eq_length_filter]

/-- C1 (corrected): on a line containing the same operator marker twice,
the code adds one, while the claim's occurrence count adds two; the
returned score is 2, the claim predicts 3. -/
theorem operator_occurrence_claim_false :
    get_file_complexity "a.c" ["if (x && y && z)"] = some ((2 : ℕ) : ℚ) ∧
    specStatementLineCount cProfile ["if (x && y && z)"] +
      specOpOccurrenceTotal cProfile ["if (x && y && z)"] = 3 ∧
    ((2 : ℕ) : ℚ) ≠ ((3 : ℕ) : ℚ) :=
  ⟨by decide, by decide, by decide⟩

/-- C1 (amended): for every recognized language, the returned complexity
score equals the number of comment-free lines containing a statement
marker plus, over all comment-free lines, the number of operator markers
the line contains — each marker contributing at most once per line. -/
theorem complexity_is_lines_plus_marker_presence (f : String) (lines : List String)
    (p : Profile) (hp : scanProfile (get_file_extension f) = some p) :
    get_file_complexity f lines
      = some ((specStatementLineCount p lines + specOpPresenceTotal p lines : ℕ) : ℚ) := by
  simp only [get_file_complexity, hp, fileComplexityWith]
  rw [show complexity_count p lines
        = specStatementLineCount p lines + specOpPresenceTotal p lines by
      unfold complexity_count
      rw [valid_lines_length_eq, logical_ops_count_eq_presence]]

/-- Witness for `complexity_is_lines_plus_marker_presence` at `a.c`. -/
theorem complexity_is_lines_plus_marker_presence_witness :
    scanProfile (get_file_extension "a.c") = some cProfile ∧
    get_file_complexity "a.c" ["if (x && y)"]
      = some ((specStatementLineCount cProfile ["if (x && y)"]
          + specOpPresenceTotal cProfile ["if (x && y)"] : ℕ) : ℚ) := by
  exact ⟨by decide, complexity_is_lines_plus_marker_presence "a.c" ["if (x && y)"] cProfile (by decide)⟩

/-! ### The raw sum is returned; the function count does not normalize it -/

/-- C2: for every recognized language the estimator returns the raw
step-5 sum (`complexity_count`) cast to a real, and the returned value
is invariant under replacing the function-definition marker — the
computed function count cannot influence the result. -/
theorem raw_sum_returned_unnormalized (f : String) (lines : List String)
    (p : Profile) (hp : scanProfile (get_file_extension f) = some p) :
    get_file_complexity f lines = some ((complexity_count p lines : ℕ) : ℚ) ∧
    ∀ fd : String,
      fileComplexityWith ⟨p.comments, p.statements, p.logicalOps, fd⟩ lines
        = fileComplexityWith p lines := by
  refine ⟨by simp only [get_file_complexity, hp, fileComplexityWith], fun fd => rfl⟩

/-- Witness for `raw_sum_returned_unnormalized` at a file with two
`return` lines (function count 2) whose raw sum is odd. -/
theorem raw_sum_returned_unnormalized_witness :
    scanProfile (get_file_extension "a.c") = some cProfile ∧
    get_file_complexity "a.c" ["if (a)", "return 1;", "if (b)", "if (c)", "return 0;"]
      = some ((complexity_count cProfile
          ["if (a)", "return 1;", "if (b)", "if (c)", "return 0;"] : ℕ) : ℚ) ∧
    fileComplexityWith ⟨cProfile.comments, cProfile.statements, cProfile.logicalOps, "x"⟩
        ["if (a)", "return 1;", "if (b)", "if (c)", "return 0;"]
      = fileComplexityWith cProfile ["if (a)", "return 1;", "if (b)", "if (c)", "return 0;"] := by
  have h := raw_sum_returned_unnormalized "a.c"
    ["if (a)", "return 1;", "if (b)", "if (c)", "return 0;"] cProfile (by decide)
  exact ⟨by decide, h.1, h.2 "x"⟩

/-! ### The `proj` example -/

/-- C6 (counterexample): with `proj/a.c` of complexity 10 and
`proj/sub/b.py` of complexity 4, the run materializes a node labelled
`proj`, and the node set has four members, not three. -/
theorem three_node_example_false :
    "proj" ∈ (processEntries [eA, eB]).labels ∧
    (processEntries [eA, eB]).labels.length = 4 := by
  exact ⟨by decide, by decide⟩

/-- C6 (amended): the run over the `proj` example yields exactly four
nodes — the three the claim lists plus the root directory node
`(proj, "", 0, 0)`. -/
theorem proj_example_four_nodes :
    get_file_complexity "a.c" eA.lines = some 10 ∧
    get_file_complexity "b.py" eB.lines = some 4 ∧
    nodes (processEntries [eA, eB]) =
      [("proj/a.c", "proj", 10, 12), ("proj", "", 0, 0),
       ("proj/sub/b.py", "proj/sub", 4, 5), ("proj/sub", "proj", 0, 0)] := by
  exact ⟨by decide, by decide, by decide⟩

/-! ### Length invariants and the empty-run abort -/

/-- The four result vectors always have equal lengths. -/
def lengthsOk (st : St) : Prop :=
  st.nlocs.length = st.labels.length ∧
  st.parents.length = st.labels.length ∧
  st.ccs.length = st.labels.length

lemma lengthsOk_dirLoop (n : Nat) (fp : List String) (st : St) (h : lengthsOk st) :
    lengthsOk (dirLoop n fp st) := by
  induction n generalizing fp st with
  | zero => exact h
  | succ n ih =>
    show lengthsOk (dirLoop n (dirStep fp st).1 (dirStep fp st).2)
    apply ih
    unfold dirStep
    by_cases hm : joinPath fp ∈ st.labels
    · simpa [hm] using h
    · obtain ⟨h1, h2, h3⟩ := h
      simp only [hm, if_false]
      refine ⟨?_, ?_, ?_⟩ <;> simp [h1, h2, h3]

lemma lengthsOk_processEntry (st : St) (e : Entry) (h : lengthsOk st) :
    lengthsOk (processEntry st e) := by
  unfold processEntry
  by_cases hv : is_file_extension_valid (filename e)
  · simp only [hv, if_true]
    cases hw : file_walk e with
    | ok r =>
      apply lengthsOk_dirLoop
      obtain ⟨h1, h2, h3⟩ := h
      exact ⟨by simp [h1], by simp [h2], by simp [h3]⟩
    | error err => exact h
  · simpa [hv] using h

lemma lengthsOk_processEntries (es : List Entry) : lengthsOk (processEntries es) := by
  unfold processEntries
  suffices h : ∀ st : St, lengthsOk st → lengthsOk (es.foldl processEntry st) from
    h initSt ⟨rfl, rfl, rfl⟩
  induction es with
  | nil => exact fun st h => h
  | cons e es ih => exact fun st h => ih _ (lengthsOk_processEntry st e h)

/-- C7: a run ending with an empty node set aborts with
`ConsistencyViolation` before the output artifact is produced (the
`Except` result is the error, so no `Output` value exists). -/
theorem empty_node_set_aborts (es : List Entry)
    (h : (processEntries es).labels = []) :
    runMain es = Except.error MainError.consistencyViolation := by
  obtain ⟨h1, h2, h3⟩ := lengthsOk_processEntries es
  have h0 : (processEntries es).labels.length = 0 := by rw [h]; rfl
  unfold runMain
  simp [h1, h2, h3, h0]

/-- Witness for `empty_node_set_aborts`: the empty walk. -/
theorem empty_node_set_aborts_witness :
    (processEntries []).labels = [] ∧
    runMain [] = Except.error MainError.consistencyViolation :=
  ⟨rfl, empty_node_set_aborts [] rfl⟩

/-! ### Classification failures are skipped; a missing statistics entry
panics the whole run -/

lemma processEntry_of_error (st : St) (e : Entry) (err : FileParserError)
    (h : file_walk e = Except.error err) : processEntry st e = st := by
  unfold processEntry
  by_cases hv : is_file_extension_valid (filename e)
  · simp [hv, h]
  · simp [hv]

lemma file_walk_of_complexity_none (e : Entry)
    (h : get_file_complexity (filename e) e.lines = none) :
    file_walk e = Except.error (FileParserError.badFileExtension (filename e)) := by
  unfold file_walk
  rw [h]

lemma foldl_processEntryTotal_error (l : List Entry) (p : RustPanic) :
    l.foldl processEntryTotal (Except.error p) = Except.error p := by
  induction l with
  | nil => rfl
  | cons e l ih => exact ih

/-- C8 (counterexample): `proj/bad.c` is classified (language `c`) and
the statistics service attributes no count to it; the run over
`[eBad, eA]` does not skip it and continue — it aborts with the
map-index panic, so the claimed normal completion never happens and
`eA` is never reflected in any final node set. -/
theorem stats_unavailable_skip_claim_false :
    get_file_extension (filename eBad) = "c" ∧
    eBad.nloc = none ∧
    processEntriesTotal [eBad, eA] = Except.error RustPanic.mapIndexPanic := by
  exact ⟨by decide, rfl, by rfl⟩

/-- C8 (amended): a file whose classification fails contributes no node
and the walk continues exactly as if the entry were absent; but a
classified file for which the statistics service returns no count is
not skipped — the statistics-map index panics and the whole run aborts
with that panic. -/
theorem classification_failure_skipped_stats_missing_panics
    (es₁ es₂ : List Entry) (e : Entry) :
    (get_file_complexity (filename e) e.lines = none →
      processEntriesTotal (es₁ ++ e :: es₂) = processEntriesTotal (es₁ ++ es₂)) ∧
    (∀ (st : St) (p : RustPanic), processEntriesTotal es₁ = Except.ok st →
      is_file_extension_valid (filename e) = true →
      (get_file_complexity (filename e) e.lines).isSome = true →
      get_file_nloc_run e = Except.error p →
      processEntriesTotal (es₁ ++ e :: es₂) = Except.error p) := by
  constructor
  · intro hc
    unfold processEntriesTotal
    rw [List.foldl_append, List.foldl_append, List.foldl_cons]
    congr 1
    generalize List.foldl processEntryTotal (Except.ok initSt) es₁ = A
    cases A with
    | error p => rfl
    | ok st =>
      show processEntryTotal (Except.ok st) e = Except.ok st
      unfold processEntryTotal
      by_cases hv : is_file_extension_valid (filename e)
      · simp only [hv, if_true, hc]
        rw [processEntry_of_error st e _ (file_walk_of_complexity_none e hc)]
      · simp only [hv, Bool.false_eq_true, if_false]
        rw [show processEntry st e = st by unfold processEntry; rw [if_neg]; simp [hv]]
  · intro st p h1 hv hcs hnl
    unfold processEntriesTotal at h1 ⊢
    rw [List.foldl_append, List.foldl_cons, h1]
    have hstep : processEntryTotal (Except.ok st) e = Except.error p := by
      obtain ⟨c, hc⟩ := Option.isSome_iff_exists.mp hcs
      unfold processEntryTotal
      simp only [hv, if_true, hc, hnl]
    rw [hstep]
    exact foldl_processEntryTotal_error es₂ p

/-- Witness for `classification_failure_skipped_stats_missing_panics`:
the unclassifiable `proj/noext` is skipped and the walk completes, while
the classified-but-uncounted `proj/bad.c` aborts the run. -/
theorem classification_failure_skipped_stats_missing_panics_witness :
    get_file_complexity (filename eX) eX.lines = none ∧
    processEntriesTotal ([eA] ++ eX :: []) = processEntriesTotal ([eA] ++ []) ∧
    processEntriesTotal [eA] = Except.ok (processEntries [eA]) ∧
    is_file_extension_valid (filename eBad) = true ∧
    (get_file_complexity (filename eBad) eBad.lines).isSome = true ∧
    get_file_nloc_run eBad = Except.error RustPanic.mapIndexPanic ∧
    processEntriesTotal ([eA] ++ eBad :: []) = Except.error RustPanic.mapIndexPanic :=
  ⟨by decide,
   (classification_failure_skipped_stats_missing_panics [eA] [] eX).1 (by decide),
   by rfl, by decide, by decide, by rfl,
   (classification_failure_skipped_stats_missing_panics [eA] [] eBad).2
     (processEntries [eA]) RustPanic.mapIndexPanic (by rfl) (by decide) (by decide) (by rfl)⟩

/-! ### Emitted complexities are integer-valued -/

lemma get_file_complexity_natCast (f : String) (lines : List String) (c : ℚ)
    (h : get_file_complexity f lines = some c) : ∃ n : ℕ, c = (n : ℚ) := by
  unfold get_file_complexity at h
  cases hs : scanProfile (get_file_extension f) with
  | none => rw [hs] at h; exact absurd h (by simp)
  | some p =>
    rw [hs] at h
    refine ⟨complexity_count p lines, ?_⟩
    simpa [fileComplexityWith] using h.symm

lemma dirLoop_ccs_natCast (n : Nat) (fp : List String) (st : St)
    (h : ∀ x ∈ st.ccs, ∃ m : ℕ, x = (m : ℚ)) :
    ∀ x ∈ (dirLoop n fp st).ccs, ∃ m : ℕ, x = (m : ℚ) := by
  induction n generalizing fp st with
  | zero => exact h
  | succ n ih =>
    show ∀ x ∈ (dirLoop n (dirStep fp st).1 (dirStep fp st).2).ccs, _
    apply ih
    unfold dirStep
    by_cases hm : joinPath fp ∈ st.labels
    · simpa [hm] using h
    · simp only [hm, if_false]
      intro x hx
      rcases List.mem_append.mp hx with hx | hx
      · exact h x hx
      · exact ⟨0, by simpa using hx⟩

lemma processEntry_ccs_natCast (st : St) (e : Entry)
    (h : ∀ x ∈ st.ccs, ∃ m : ℕ, x = (m : ℚ)) :
    ∀ x ∈ (processEntry st e).ccs, ∃ m : ℕ, x = (m : ℚ) := by
  unfold processEntry
  by_cases hv : is_file_extension_valid (filename e)
  · simp only [hv, if_true]
    cases hw : file_walk e with
    | ok r =>
      apply dirLoop_ccs_natCast
      intro x hx
      rcases List.mem_append.mp hx with hx | hx
      · exact h x hx
      · have hr : x = r.cc := by simpa using hx
        have : ∃ m : ℕ, r.cc = (m : ℚ) := by
          unfold file_walk at hw
          cases hc : get_file_complexity (filename e) e.lines with
          | none => rw [hc] at hw; exact absurd hw (by simp)
          | some c =>
            rw [hc] at hw
            cases hn : get_file_nloc e with
            | none => rw [hn] at hw; exact absurd hw (by simp)
            | some m =>
              rw [hn] at hw
              obtain ⟨k, hk⟩ := get_file_complexity_natCast _ _ _ hc
              refine ⟨k, ?_⟩
              cases hw
              exact hk
        exact hr ▸ this
    | error err => exact h
  · simpa [hv] using h

/-- C10: every complexity value in the emitted array is an integer-valued
rational — file complexities are natural-number counts cast once,
directory complexities are the literal 0. -/
theorem emitted_complexities_integer_valued (es : List Entry) :
    ∀ x ∈ (processEntries es).ccs, ∃ n : ℕ, x = (n : ℚ) := by
  unfold processEntries
  suffices h : ∀ st : St, (∀ x ∈ st.ccs, ∃ n : ℕ, x = (n : ℚ)) →
      ∀ x ∈ (es.foldl processEntry st).ccs, ∃ n : ℕ, x = (n : ℚ) by
    exact h initSt (by simp [initSt])
  induction es with
  | nil => exact fun st h => h
  | cons e es ih => exact fun st h => ih _ (processEntry_ccs_natCast st e h)

/-- Witness for `emitted_complexities_integer_valued` at the value 10
emitted for `proj/a.c`. -/
theorem emitted_complexities_integer_valued_witness :
    (10 : ℚ) ∈ (processEntries [eA]).ccs ∧ ∃ n : ℕ, (10 : ℚ) = (n : ℚ) :=
  ⟨by decide, emitted_complexities_integer_valued [eA] 10 (by decide)⟩

/-! ### The walker's extension filter guarantees classification -/

lemma takeWhile_append_all {p : Char → Bool} (a b : List Char)
    (h : ∀ x ∈ a, p x = true) :
    (a ++ b).takeWhile p = a ++ b.takeWhile p := by
  induction a with
  | nil => simp
  | cons c a ih =>
    rw [List.cons_append, List.takeWhile_cons]
    rw [h c (List.mem_cons_self c a)]
    simp only [if_true, List.cons_append]
    rw [ih (fun x hx => h x (List.mem_cons_of_mem c hx))]

lemma rsplit_of_dot_suffix (f : String) (l e : List Char) (he : '.' ∉ e)
    (hd : f.data = l ++ '.' :: e) : rsplitFirstDot f = String.mk e := by
  unfold rsplitFirstDot
  rw [hd, List.reverse_append, List.reverse_cons, List.append_assoc,
    List.singleton_append]
  rw [takeWhile_append_all e.reverse ('.' :: l.reverse)
    (fun x hx => by
      have hxe : x ∈ e := List.mem_reverse.mp hx
      have : x ≠ '.' := fun hc => he (hc ▸ hxe)
      simpa using this)]
  rw [List.takeWhile_cons]
  simp

lemma data_decomp_of_endsWith (f s : String) (h : strEndsWith f s = true) :
    ∃ t, f.data = t ++ s.data := by
  unfold strEndsWith at h
  rw [List.isSuffixOf] at h
  rcases List.isPrefixOf_iff_prefix.mp h with ⟨t, ht⟩
  exact ⟨t.reverse, by
    simpa [List.reverse_eq_iff] using congrArg List.reverse ht.symm⟩

lemma classifier_of_valid (f : String) (h : is_file_extension_valid f = true) :
    get_file_extension f = "c" ∨ get_file_extension f = "cpp" ∨
    get_file_extension f = "py" ∨ get_file_extension f = "js" := by
  unfold is_file_extension_valid at h
  have hmem := List.any_eq_true.mp h
  rcases hmem with ⟨s, hs, hends⟩
  have hext : ∀ (e : List Char), '.' ∉ e → s.data = '.' :: e →
      get_file_extension f = get_file_extension (String.mk ('.' :: e)) → True := fun _ _ _ _ => trivial
  clear hext
  rcases data_decomp_of_endsWith f s hends with ⟨t, ht⟩
  fin_cases hs
  · left
    have hr := rsplit_of_dot_suffix f t ['c'] (by decide) (by simpa using ht)
    unfold get_file_extension
    rw [hr]
    decide
  · right; left
    have hr := rsplit_of_dot_suffix f t ['c', 'p', 'p'] (by decide) (by simpa using ht)
    unfold get_file_extension
    rw [hr]
    decide
  · right; left
    have hr := rsplit_of_dot_suffix f t ['c', 'c'] (by decide) (by simpa using ht)
    unfold get_file_extension
    rw [hr]
    decide
  · right; left
    have hr := rsplit_of_dot_suffix f t ['c', 'x', 'x'] (by decide) (by simpa using ht)
    unfold get_file_extension
    rw [hr]
    decide
  · right; right; left
    have hr := rsplit_of_dot_suffix f t ['p', 'y'] (by decide) (by simpa using ht)
    unfold get_file_extension
    rw [hr]
    decide
  · right; right; right
    have hr := rsplit_of_dot_suffix f t ['j', 's'] (by decide) (by simpa using ht)
    unfold get_file_extension
    rw [hr]
    decide

/-- C9: every filename accepted by the walker's extension filter is
mapped to a recognized language by the classifier, so the complexity
estimator never takes its `None` (BadExtension) branch for such a file. -/
theorem walker_filter_implies_classifier_success (f : String)
    (h : is_file_extension_valid f = true) :
    get_file_extension f ≠ "" ∧
    (scanProfile (get_file_extension f)).isSome = true ∧
    ∀ lines : List String, (get_file_complexity f lines).isSome = true := by
  rcases classifier_of_valid f h with h' | h' | h' | h' <;>
    exact ⟨by rw [h']; decide, by rw [h']; rfl,
      fun lines => by simp [get_file_complexity, h', scanProfile]⟩

/-- Witness for `walker_filter_implies_classifier_success` at `a.c`. -/
theorem walker_filter_implies_classifier_success_witness :
    is_file_extension_valid "a.c" = true ∧
    (get_file_extension "a.c" ≠ "" ∧
     (scanProfile (get_file_extension "a.c")).isSome = true ∧
     ∀ lines : List String, (get_file_complexity "a.c" lines).isSome = true) :=
  ⟨by decide, walker_filter_implies_classifier_success "a.c" (by decide)⟩

/-! ### Injectivity of `join("/")` on slash-free nonempty components

Path components produced by splitting on `/` contain no slash and are
nonempty, which makes the join an injective encoding — the fact that
lets the label-keyed dedup of the hierarchy builder work. -/

/-- Character-level image of `joinPath`. -/
def joinC : List (List Char) → List Char
  | [] => []
  | [x] => x
  | x :: y :: ys => x ++ '/' :: joinC (y :: ys)

lemma joinPath_data (l : List String) : (joinPath l).data = joinC (l.map String.data) := by
  induction l with
  | nil => rfl
  | cons x xs ih =>
    cases xs with
    | nil => rfl
    | cons y ys =>
      show (x ++ "/" ++ joinPath (y :: ys)).data = x.data ++ '/' :: joinC ((y :: ys).map String.data)
      rw [String.data_append, String.data_append, ← ih, List.append_assoc]
      rfl

/-- A good path component: nonempty and slash-free. -/
def goodComp (s : String) : Prop := s.data ≠ [] ∧ '/' ∉ s.data

instance (s : String) : Decidable (goodComp s) := by
  unfold goodComp; infer_instance

lemma append_slash_inj (a : List Char) : ∀ (b r₁ r₂ : List Char), '/' ∉ a → '/' ∉ b →
    a ++ '/' :: r₁ = b ++ '/' :: r₂ → a = b ∧ r₁ = r₂ := by
  induction a with
  | nil =>
    intro b r₁ r₂ _ hb h
    cases b with
    | nil => simpa using h
    | cons c bs =>
      exfalso
      have hc : '/' = c := by simpa using congrArg (fun l => l.headD ' ') h
      exact hb (hc ▸ List.mem_cons_self c bs)
  | cons c as ih =>
    intro b r₁ r₂ ha hb h
    cases b with
    | nil =>
      exfalso
      have hc : c = '/' := by simpa using congrArg (fun l => l.headD ' ') h
      exact ha (hc ▸ List.mem_cons_self c as)
    | cons d bs =>
      have hcd : c = d := by simpa using congrArg (fun l => l.headD ' ') h
      have htl : as ++ '/' :: r₁ = bs ++ '/' :: r₂ := by
        simpa using congrArg List.tail h
      have ha' : '/' ∉ as := fun hx => ha (List.mem_cons_of_mem c hx)
      have hb' : '/' ∉ bs := fun hx => hb (List.mem_cons_of_mem d hx)
      obtain ⟨h1, h2⟩ := ih bs r₁ r₂ ha' hb' htl
      exact ⟨by rw [hcd, h1], h2⟩

lemma joinC_inj (l₁ : List (List Char)) : ∀ l₂ : List (List Char),
    (∀ x ∈ l₁, x ≠ [] ∧ '/' ∉ x) → (∀ x ∈ l₂, x ≠ [] ∧ '/' ∉ x) →
    joinC l₁ = joinC l₂ → l₁ = l₂ := by
  induction l₁ with
  | nil =>
    intro l₂ _ h₂ h
    cases l₂ with
    | nil => rfl
    | cons y ys =>
      exfalso
      cases ys with
      | nil => exact (h₂ y (List.mem_cons_self y [])).1 h.symm
      | cons z zs =>
        have : y ++ '/' :: joinC (z :: zs) = [] := h.symm
        exact absurd this (by simp)
  | cons x xs ih =>
    intro l₂ h₁ h₂ h
    cases l₂ with
    | nil =>
      exfalso
      cases xs with
      | nil => exact (h₁ x (List.mem_cons_self x [])).1 h
      | cons z zs =>
        have : x ++ '/' :: joinC (z :: zs) = [] := h
        exact absurd this (by simp)
    | cons y ys =>
      cases xs with
      | nil =>
        cases ys with
        | nil =>
          have : x = y := h
          rw [this]
        | cons z zs =>
          exfalso
          have hx : x = y ++ '/' :: joinC (z :: zs) := h
          have : '/' ∈ x := by
            rw [hx]
            exact List.mem_append.mpr (Or.inr (List.mem_cons_self _ _))
          exact (h₁ x (List.mem_cons_self x [])).2 this
      | cons w ws =>
        cases ys with
        | nil =>
          exfalso
          have hy : y = x ++ '/' :: joinC (w :: ws) := h.symm
          have : '/' ∈ y := by
            rw [hy]
            exact List.mem_append.mpr (Or.inr (List.mem_cons_self _ _))
          exact (h₂ y (List.mem_cons_self y [])).2 this
        | cons z zs =>
          have h' : x ++ '/' :: joinC (w :: ws) = y ++ '/' :: joinC (z :: zs) := h
          obtain ⟨hxy, hrest⟩ := append_slash_inj x y _ _
            (h₁ x (List.mem_cons_self x _)).2 (h₂ y (List.mem_cons_self y _)).2 h'
          have := ih (z :: zs) (fun a ha => h₁ a (List.mem_cons_of_mem x ha))
            (fun a ha => h₂ a (List.mem_cons_of_mem y ha)) hrest
          rw [hxy, this]

lemma joinPath_inj {l₁ l₂ : List String} (h₁ : ∀ x ∈ l₁, goodComp x)
    (h₂ : ∀ x ∈ l₂, goodComp x) (h : joinPath l₁ = joinPath l₂) : l₁ = l₂ := by
  have hd : l₁.map String.data = l₂.map String.data := by
    apply joinC_inj
    · intro x hx
      rcases List.mem_map.mp hx with ⟨s, hs, rfl⟩
      exact h₁ s hs
    · intro x hx
      rcases List.mem_map.mp hx with ⟨s, hs, rfl⟩
      exact h₂ s hs
    · rw [← joinPath_data, ← joinPath_data, h]
  have hinj : Function.Injective String.data := fun a b hab => String.ext hab
  exact List.map_injective_iff.mpr hinj hd

lemma joinPath_ne_empty {l : List String} (hl : l ≠ []) (h : ∀ x ∈ l, goodComp x) :
    joinPath l ≠ "" := by
  intro he
  have hd : joinC (l.map String.data) = [] := by
    rw [← joinPath_data, he]
  cases l with
  | nil => exact hl rfl
  | cons x xs =>
    cases xs with
    | nil => exact (h x (List.mem_cons_self x [])).1 hd
    | cons y ys =>
      have : x.data ++ '/' :: joinC ((y :: ys).map String.data) = [] := hd
      exact absurd this (by simp)

/-! ### The ancestor-materialization loop, characterized

`missingChainN` names the directory nodes one run of the loop inserts:
the tested path, then its iterated `dropLast`s, stopping at the first
join already present among the labels (the source loop keeps iterating
but stops popping, so later iterations re-test the same present label
and do nothing). -/

/-- Ancestors the loop would insert, walking from `p` upwards and
stopping at the first already-present label; the fuel equals `p.length`
at every call. -/
def missingChainN (labels : List String) : Nat → List String → List (List String)
  | 0, _ => []
  | Nat.succ n, p =>
    match p with
    | [] => []
    | _ :: _ =>
      if joinPath p ∈ labels then [] else p :: missingChainN labels n p.dropLast

lemma take_dropLast (p : List String) (i : Nat) (h : i ≤ p.length - 1) :
    p.dropLast.take i = p.take i := by
  rw [List.dropLast_eq_take, List.take_take, min_eq_left h]

lemma missingChainN_shape (labels : List String) :
    ∀ (n : Nat) (p : List String), p.length = n →
    ∀ r ∈ missingChainN labels n p,
      ∃ i, 1 ≤ i ∧ i ≤ n ∧ r = p.take i ∧ joinPath (p.take i) ∉ labels := by
  intro n
  induction n with
  | zero => intro p _ r hr; exact absurd hr (by simp [missingChainN])
  | succ n ih =>
    intro p hp r hr
    cases p with
    | nil => exact absurd hr (by simp [missingChainN])
    | cons x rest =>
      have hrest : rest.length = n := by simpa using hp
      rw [missingChainN] at hr
      by_cases hm : joinPath (x :: rest) ∈ labels
      · rw [if_pos hm] at hr
        exact absurd hr (by simp)
      · rw [if_neg hm] at hr
        rcases List.mem_cons.mp hr with hr | hr
        · refine ⟨n + 1, by omega, le_refl _, ?_, ?_⟩
          · rw [hr, ← hp, List.take_length]
          · rw [← hp, List.take_length]; exact hm
        · have hlen : (x :: rest).dropLast.length = n := by
            simp [List.length_dropLast]; omega
          rcases ih (x :: rest).dropLast hlen r hr with ⟨i, h1, h2, h3, h4⟩
          have hte : (x :: rest).dropLast.take i = (x :: rest).take i :=
            take_dropLast _ i (by simp [List.length_dropLast]; omega)
          exact ⟨i, h1, by omega, by rw [h3, hte], by rw [← hte]; exact h4⟩

lemma missingChainN_nodup (labels : List String) :
    ∀ (n : Nat) (p : List String), p.length = n → (missingChainN labels n p).Nodup := by
  intro n
  induction n with
  | zero => intro p _; simp [missingChainN]
  | succ n ih =>
    intro p hp
    cases p with
    | nil => simp [missingChainN]
    | cons x rest =>
      have hrest : rest.length = n := by simpa using hp
      rw [missingChainN]
      by_cases hm : joinPath (x :: rest) ∈ labels
      · rw [if_pos hm]; exact List.nodup_nil
      · rw [if_neg hm]
        have hlen : (x :: rest).dropLast.length = n := by
          simp [List.length_dropLast]; omega
        refine List.Nodup.cons ?_ (ih _ hlen)
        intro hmem
        rcases missingChainN_shape labels n _ hlen _ hmem with ⟨i, h1, h2, h3, _⟩
        have : (x :: rest).length = ((x :: rest).dropLast.take i).length := by rw [← h3]
        rw [List.length_take, hlen] at this
        simp at this
        omega

lemma missingChainN_stable (labels : List String) (a : String) :
    ∀ (n : Nat) (q : List String),
    (∀ i, 1 ≤ i → i ≤ q.length → joinPath (q.take i) ≠ a) →
    missingChainN (labels ++ [a]) n q = missingChainN labels n q := by
  intro n
  induction n with
  | zero => intro q _; rfl
  | succ n ih =>
    intro q hq
    cases q with
    | nil => rfl
    | cons x rest =>
      rw [missingChainN, missingChainN]
      have hja : joinPath (x :: rest) ≠ a := by
        have := hq (x :: rest).length (by simp) (le_refl _)
        rwa [List.take_length] at this
      have hmem : joinPath (x :: rest) ∈ labels ++ [a] ↔ joinPath (x :: rest) ∈ labels := by
        simp [List.mem_append, hja]
      by_cases hm : joinPath (x :: rest) ∈ labels
      · rw [if_pos (hmem.mpr hm), if_pos hm]
      · rw [if_neg (fun hc => hm (hmem.mp hc)), if_neg hm]
        congr 1
        apply ih
        intro i h1 h2
        have hlen : (x :: rest).dropLast.length = (x :: rest).length - 1 := by
          simp [List.length_dropLast]
        rw [take_dropLast _ i (by omega)]
        have hdl : (x :: rest).dropLast.length = rest.length := by simp
        exact hq i h1 (by simp only [List.length_cons]; omega)

lemma missingChainN_mem_iff (labels : List String) :
    ∀ (n : Nat) (p : List String), p.length = n →
    (∀ i j, 1 ≤ i → i ≤ j → j ≤ n → joinPath (p.take j) ∈ labels →
      joinPath (p.take i) ∈ labels) →
    ∀ r, r ∈ missingChainN labels n p ↔
      ∃ i, 1 ≤ i ∧ i ≤ n ∧ r = p.take i ∧ joinPath (p.take i) ∉ labels := by
  intro n
  induction n with
  | zero =>
    intro p hp _ r
    constructor
    · intro hr; exact absurd hr (by simp [missingChainN])
    · rintro ⟨i, h1, h2, _, _⟩; omega
  | succ n ih =>
    intro p hp hDC r
    constructor
    · exact missingChainN_shape labels (n + 1) p hp r
    · rintro ⟨i, h1, h2, h3, h4⟩
      cases p with
      | nil => simp at hp
      | cons x rest =>
        have hrest : rest.length = n := by simpa using hp
        rw [missingChainN]
        have hnm : joinPath (x :: rest) ∉ labels := by
          intro hc
          exact h4 (hDC i (n + 1) h1 h2 (le_refl _)
            (by rw [← hp, List.take_length]; exact hc))
        rw [if_neg hnm]
        rcases Nat.lt_or_ge i (n + 1) with hi | hi
        · refine List.mem_cons_of_mem _ ?_
          have hlen : (x :: rest).dropLast.length = n := by
            simp [List.length_dropLast]; omega
          have hte : (x :: rest).dropLast.take i = (x :: rest).take i :=
            take_dropLast _ i (by simp; omega)
          apply (ih (x :: rest).dropLast hlen ?_ r).mpr
          · exact ⟨i, h1, by omega, by rw [h3, hte], by rw [hte]; exact h4⟩
          · intro i' j' hi1 hij hj hmem
            have h1' : (x :: rest).dropLast.take j' = (x :: rest).take j' :=
              take_dropLast _ j' (by simp; omega)
            have h2' : (x :: rest).dropLast.take i' = (x :: rest).take i' :=
              take_dropLast _ i' (by simp; omega)
            rw [h1'] at hmem
            rw [h2']
            exact hDC i' j' hi1 hij (by omega) hmem
        · have hieq : i = n + 1 := by omega
          rw [h3, hieq, ← hp, List.take_length]
          exact List.mem_cons_self _ _

/-- Final state of one run of the ancestor loop: the chain's nodes
appended to all four vectors. -/
def appendSt (st : St) (M : List (List String)) : St :=
  ⟨st.nlocs ++ List.replicate M.length 0,
   st.ccs ++ List.replicate M.length 0,
   st.labels ++ M.map joinPath,
   st.parents ++ M.map (fun q => joinPath q.dropLast)⟩

lemma appendSt_nil (st : St) : appendSt st [] = st := by
  cases st; simp [appendSt]

lemma dirLoop_stall (n : Nat) (fp : List String) (st : St)
    (h : joinPath fp ∈ st.labels) : dirLoop n fp st = st := by
  induction n with
  | zero => rfl
  | succ n ih =>
    show dirLoop n (dirStep fp st).1 (dirStep fp st).2 = st
    rw [dirStep, if_pos h]
    exact ih

lemma dirLoop_chain : ∀ (n : Nat) (p : List String) (st : St), p.length = n →
    (∀ x ∈ p, goodComp x) →
    dirLoop n p st = appendSt st (missingChainN st.labels n p) := by
  intro n
  induction n with
  | zero =>
    intro p st hp _
    rw [show missingChainN st.labels 0 p = [] from rfl, appendSt_nil]
    rfl
  | succ n ih =>
    intro p st hp hg
    cases p with
    | nil => simp at hp
    | cons x rest =>
      have hrest : rest.length = n := by simpa using hp
      rw [missingChainN]
      by_cases hm : joinPath (x :: rest) ∈ st.labels
      · rw [if_pos hm, appendSt_nil]
        exact dirLoop_stall _ _ _ hm
      · rw [if_neg hm]
        show dirLoop n (dirStep (x :: rest) st).1 (dirStep (x :: rest) st).2 = _
        rw [dirStep, if_neg hm]
        have hlen : (x :: rest).dropLast.length = n := by
          simp [List.length_dropLast]; omega
        have hg' : ∀ y ∈ (x :: rest).dropLast, goodComp y :=
          fun y hy => hg y (List.dropLast_subset _ hy)
        rw [ih (x :: rest).dropLast _ hlen hg']
        have hstable : missingChainN (st.labels ++ [joinPath (x :: rest)]) n (x :: rest).dropLast
            = missingChainN st.labels n (x :: rest).dropLast := by
          apply missingChainN_stable
          intro i h1 h2
          have hdl : (x :: rest).dropLast.length = rest.length := by simp
          rw [take_dropLast _ i (by simp only [List.length_cons]; omega)]
          intro hc
          have hieq : (x :: rest).take i = x :: rest := by
            apply joinPath_inj (fun y hy => hg y (List.mem_of_mem_take hy)) hg hc
          have hlt : ((x :: rest).take i).length = (x :: rest).length := by rw [hieq]
          rw [List.length_take] at hlt
          simp only [List.length_cons] at hlt
          omega
        rw [hstable]
        unfold appendSt
        simp only [List.map_cons, List.length_cons, List.length_map]
        congr 1
        · rw [List.replicate_succ, List.append_assoc]; rfl
        · rw [List.replicate_succ, List.append_assoc]; rfl
        · rw [List.append_assoc]; rfl
        · rw [List.append_assoc]; rfl

/-! ### Node-set characterization of a whole run -/

/-- Complexity recorded for a successfully analyzed file. -/
def fileCC (e : Entry) : ℚ := (get_file_complexity (filename e) e.lines).getD 0

/-- Line count recorded for a successfully analyzed file. -/
def fileNloc (e : Entry) : Nat := (get_file_nloc e).getD 0

/-- The file node a successful `file_walk` contributes. -/
def fileRecord (e : Entry) : Node :=
  (joinPath e.relPath, joinPath e.relPath.dropLast, fileCC e, fileNloc e)

/-- The directory node materialized for an ancestor path. -/
def dirRecord (q : List String) : Node :=
  (joinPath q, joinPath q.dropLast, 0, 0)

/-- Proper nonempty prefixes of a path: its ancestor directories. -/
def prefixesOf (p : List String) : List (List String) :=
  (List.range (p.length - 1)).map (fun i => p.take (i + 1))

/-- All distinct ancestor directories across a list of entries. -/
def ancFinset (es : List Entry) : Finset (List String) :=
  es.foldr (fun e acc => (prefixesOf e.relPath).toFinset ∪ acc) ∅

lemma ancFinset_cons (e : Entry) (es : List Entry) :
    ancFinset (e :: es) = (prefixesOf e.relPath).toFinset ∪ ancFinset es := rfl

lemma mem_prefixesOf {p q : List String} :
    q ∈ prefixesOf p ↔ ∃ i, 1 ≤ i ∧ i ≤ p.length - 1 ∧ q = p.take i := by
  unfold prefixesOf
  simp only [List.mem_map, List.mem_range]
  constructor
  · rintro ⟨i, hi, rfl⟩
    exact ⟨i + 1, by omega, by omega, rfl⟩
  · rintro ⟨i, h1, h2, rfl⟩
    refine ⟨i - 1, by omega, ?_⟩
    congr 1
    omega

lemma mem_ancFinset {q : List String} {es : List Entry} :
    q ∈ ancFinset es ↔ ∃ e ∈ es, q ∈ prefixesOf e.relPath := by
  induction es with
  | nil => simp [ancFinset]
  | cons e es ih =>
    rw [ancFinset_cons]
    simp only [Finset.mem_union, List.mem_toFinset, ih, List.mem_cons]
    constructor
    · rintro (h | ⟨e', he', hq⟩)
      · exact ⟨e, Or.inl rfl, h⟩
      · exact ⟨e', Or.inr he', hq⟩
    · rintro ⟨e', he' | he', hq⟩
      · exact Or.inl (he' ▸ hq)
      · exact Or.inr ⟨e', he', hq⟩

lemma ancFinset_append_single (es : List Entry) (e : Entry) :
    ancFinset (es ++ [e]) = ancFinset es ∪ (prefixesOf e.relPath).toFinset := by
  ext q
  simp only [Finset.mem_union, mem_ancFinset, List.mem_append, List.mem_singleton,
    List.mem_toFinset]
  constructor
  · rintro ⟨e', he' | rfl, hq⟩
    · exact Or.inl ⟨e', he', hq⟩
    · exact Or.inr hq
  · rintro (⟨e', he', hq⟩ | hq)
    · exact ⟨e', Or.inl he', hq⟩
    · exact ⟨e, Or.inr rfl, hq⟩

/-- A usable path: nonempty, every component nonempty and slash-free. -/
def goodPath (p : List String) : Prop := p ≠ [] ∧ ∀ s ∈ p, goodComp s

instance (p : List String) : Decidable (goodPath p) := by
  unfold goodPath; infer_instance

/-- Path `p` is not a (possibly improper) prefix of path `q`: distinct
filesystem files satisfy this in both directions. -/
def NoPrefix (p q : List String) : Prop := ∀ k, k ≤ q.length → p ≠ q.take k

instance (p q : List String) : Decidable (NoPrefix p q) := Nat.decidableBallLE _ _

lemma noPrefix_ne_take {p q : List String} (h : NoPrefix p q) (k : Nat) :
    p ≠ q.take k := by
  rcases le_or_lt k q.length with hk | hk
  · exact h k hk
  · have h0 := h q.length (le_refl _)
    rw [List.take_length] at h0
    rw [List.take_of_length_le (le_of_lt hk)]
    exact h0

/-- Entries come from distinct files: no relative path is a prefix of
another's. -/
def SepPaths (es : List Entry) : Prop :=
  es.Pairwise (fun a b => NoPrefix a.relPath b.relPath ∧ NoPrefix b.relPath a.relPath)

instance (es : List Entry) : Decidable (SepPaths es) := by
  unfold SepPaths; infer_instance

/-- A successfully analyzed file: passes the extension filter, both the
estimator and the line counter return values, and its path is usable. -/
def okEntry (e : Entry) : Prop :=
  is_file_extension_valid (filename e) = true ∧
  (get_file_complexity (filename e) e.lines).isSome = true ∧
  (get_file_nloc e).isSome = true ∧
  goodPath e.relPath

instance (e : Entry) : Decidable (okEntry e) := by
  unfold okEntry; infer_instance

/-- Hypotheses describing any real walk: every entry analyzed
successfully, over distinct filesystem files. -/
def GoodRun (es : List Entry) : Prop := (∀ e ∈ es, okEntry e) ∧ SepPaths es

instance (es : List Entry) : Decidable (GoodRun es) := by
  unfold GoodRun; infer_instance

lemma file_walk_ok (e : Entry)
    (hc : (get_file_complexity (filename e) e.lines).isSome = true)
    (hn : (get_file_nloc e).isSome = true) :
    file_walk e = Except.ok
      ⟨fileCC e, fileNloc e, joinPath e.relPath, joinPath e.relPath.dropLast⟩ := by
  obtain ⟨c, hc'⟩ := Option.isSome_iff_exists.mp hc
  obtain ⟨n, hn'⟩ := Option.isSome_iff_exists.mp hn
  unfold file_walk fileCC fileNloc
  rw [hc', hn']
  simp

lemma processEntry_ok (st : St) (e : Entry)
    (hval : is_file_extension_valid (filename e) = true)
    (hc : (get_file_complexity (filename e) e.lines).isSome = true)
    (hn : (get_file_nloc e).isSome = true) :
    processEntry st e = dirLoop (entryDepth e) e.relPath.dropLast
      ⟨st.nlocs ++ [fileNloc e], st.ccs ++ [fileCC e],
       st.labels ++ [joinPath e.relPath],
       st.parents ++ [joinPath e.relPath.dropLast]⟩ := by
  unfold processEntry
  rw [file_walk_ok e hc hn]
  simp [hval]

lemma lengthsOk_appendSt (st : St) (M : List (List String)) (h : lengthsOk st) :
    lengthsOk (appendSt st M) := by
  obtain ⟨h1, h2, h3⟩ := h
  refine ⟨?_, ?_, ?_⟩ <;> simp [appendSt, h1, h2, h3]

lemma nodes_append (st : St) (ns : List Nat) (cs : List ℚ) (ls ps : List String)
    (h : lengthsOk st) (h1 : ps.length = ls.length) (h2 : cs.length = ls.length)
    (h3 : ns.length = ls.length) :
    nodes ⟨st.nlocs ++ ns, st.ccs ++ cs, st.labels ++ ls, st.parents ++ ps⟩
      = nodes st ++ ls.zip (ps.zip (cs.zip ns)) := by
  obtain ⟨g1, g2, g3⟩ := h
  unfold nodes
  rw [List.zip_append (by omega), List.zip_append (by simp [List.length_zip]; omega),
    List.zip_append (by simp [List.length_zip]; omega)]

lemma nodes_push_file (st : St) (e : Entry) (h : lengthsOk st) :
    nodes ⟨st.nlocs ++ [fileNloc e], st.ccs ++ [fileCC e],
      st.labels ++ [joinPath e.relPath],
      st.parents ++ [joinPath e.relPath.dropLast]⟩
      = nodes st ++ [fileRecord e] := by
  rw [nodes_append st [fileNloc e] [fileCC e] [joinPath e.relPath]
    [joinPath e.relPath.dropLast] h rfl rfl rfl]
  rfl

lemma zip_dir_records (M : List (List String)) :
    (M.map joinPath).zip ((M.map (fun q => joinPath q.dropLast)).zip
      ((List.replicate M.length (0 : ℚ)).zip (List.replicate M.length (0 : Nat))))
      = M.map dirRecord := by
  induction M with
  | nil => rfl
  | cons q M ih =>
    simp only [List.map_cons, List.length_cons, List.replicate_succ, List.zip_cons_cons]
    rw [ih]
    rfl

lemma nodes_appendSt (st : St) (M : List (List String)) (h : lengthsOk st) :
    nodes (appendSt st M) = nodes st ++ M.map dirRecord := by
  unfold appendSt
  rw [nodes_append st _ _ _ _ h (by simp) (by simp) (by simp), zip_dir_records]

lemma nodes_map_label (st : St) (h : lengthsOk st) :
    (nodes st).map Prod.fst = st.labels := by
  obtain ⟨h1, h2, h3⟩ := h
  unfold nodes
  rw [List.map_fst_zip]
  simp [List.length_zip, h1, h2, h3]

lemma nodes_map_parent (st : St) (h : lengthsOk st) :
    (nodes st).map (fun r => r.2.1) = st.parents := by
  obtain ⟨h1, h2, h3⟩ := h
  unfold nodes
  have hf : (fun r : Node => r.2.1) = Prod.fst ∘ Prod.snd := rfl
  rw [hf, ← List.map_map, List.map_snd_zip _ _ (by simp [List.length_zip, h1, h2, h3]),
    List.map_fst_zip _ _ (by simp [List.length_zip, h1, h2, h3])]

/-- The run invariant: lengths agree, labels are distinct, and the node
multiset is exactly file records plus one directory record per distinct
ancestor. -/
def Inv (es : List Entry) (st : St) : Prop :=
  lengthsOk st ∧ st.labels.Nodup ∧
  ((nodes st : Multiset Node)
    = ↑(es.map fileRecord) + Multiset.map dirRecord (ancFinset es).val)

lemma labels_multiset_of_inv (es : List Entry) (st : St) (h : Inv es st) :
    (st.labels : Multiset String)
      = ↑(es.map (fun e => joinPath e.relPath))
        + Multiset.map (fun q => joinPath q) (ancFinset es).val := by
  have hl : st.labels = (nodes st).map Prod.fst := (nodes_map_label st h.1).symm
  rw [hl, ← Multiset.map_coe, h.2.2, Multiset.map_add, Multiset.map_map,
    Multiset.map_coe, List.map_map]
  rfl

lemma mem_labels_iff (es : List Entry) (st : St) (h : Inv es st) (s : String) :
    s ∈ st.labels ↔
      (∃ e ∈ es, s = joinPath e.relPath) ∨ ∃ q ∈ ancFinset es, s = joinPath q := by
  have hm : s ∈ st.labels ↔ s ∈ (st.labels : Multiset String) := by simp
  rw [hm, labels_multiset_of_inv es st h]
  simp only [Multiset.mem_add, Multiset.mem_coe, List.mem_map, Multiset.mem_map]
  constructor
  · rintro (⟨e, he, rfl⟩ | ⟨q, hq, rfl⟩)
    · exact Or.inl ⟨e, he, rfl⟩
    · exact Or.inr ⟨q, hq, rfl⟩
  · rintro (⟨e, he, rfl⟩ | ⟨q, hq, rfl⟩)
    · exact Or.inl ⟨e, he, rfl⟩
    · exact Or.inr ⟨q, hq, rfl⟩

lemma good_of_anc {es : List Entry} (hok : ∀ e ∈ es, okEntry e) {q : List String}
    (hq : q ∈ ancFinset es) : q ≠ [] ∧ ∀ x ∈ q, goodComp x := by
  rcases mem_ancFinset.mp hq with ⟨e, he, hpre⟩
  rcases mem_prefixesOf.mp hpre with ⟨i, h1, h2, rfl⟩
  have hg := (hok e he).2.2.2
  constructor
  · intro hnil
    have hz : (e.relPath.take i).length = 0 := by rw [hnil]; rfl
    rw [List.length_take] at hz
    have hne : e.relPath.length ≠ 0 := fun hc => hg.1 (List.length_eq_zero.mp hc)
    omega
  · exact fun x hx => hg.2 x (List.mem_of_mem_take hx)

lemma anc_take_mem {es : List Entry} {e : Entry} (he : e ∈ es) {i : Nat}
    (h1 : 1 ≤ i) (h2 : i ≤ e.relPath.length - 1) :
    e.relPath.take i ∈ ancFinset es :=
  mem_ancFinset.mpr ⟨e, he, mem_prefixesOf.mpr ⟨i, h1, h2, rfl⟩⟩

lemma anc_closed {es : List Entry} {q : List String} (hq : q ∈ ancFinset es) :
    ∀ i, 1 ≤ i → i ≤ q.length → q.take i ∈ ancFinset es := by
  intro i h1 h2
  rcases mem_ancFinset.mp hq with ⟨e, he, hpre⟩
  rcases mem_prefixesOf.mp hpre with ⟨m, hm1, hm2, rfl⟩
  have hql : (e.relPath.take m).length = m := by
    rw [List.length_take]
    omega
  rw [List.take_take, min_eq_left (by omega)]
  exact anc_take_mem he h1 (by omega)

lemma inv_step (es : List Entry) (e : Entry) (st : St)
    (hInv : Inv es st) (hok : ∀ e' ∈ es, okEntry e') (hoke : okEntry e)
    (hsep : ∀ e' ∈ es, NoPrefix e'.relPath e.relPath ∧ NoPrefix e.relPath e'.relPath) :
    Inv (es ++ [e]) (processEntry st e) := by
  obtain ⟨hlen, hnd, hm⟩ := hInv
  obtain ⟨hval, hcs, hns, hne, hgc⟩ := hoke
  have hlen0 : e.relPath.length ≠ 0 := fun hc => hne (List.length_eq_zero.mp hc)
  have hdep : e.relPath.dropLast.length = entryDepth e := by
    simp [entryDepth, List.length_dropLast]
  have hgdrop : ∀ x ∈ e.relPath.dropLast, goodComp x :=
    fun x hx => hgc x (List.dropLast_subset _ hx)
  have hgti : ∀ i, ∀ x ∈ e.relPath.take i, goodComp x :=
    fun i x hx => hgc x (List.mem_of_mem_take hx)
  rw [processEntry_ok st e hval hcs hns,
    dirLoop_chain (entryDepth e) e.relPath.dropLast _ hdep hgdrop]
  set st1 : St := ⟨st.nlocs ++ [fileNloc e], st.ccs ++ [fileCC e],
    st.labels ++ [joinPath e.relPath],
    st.parents ++ [joinPath e.relPath.dropLast]⟩ with hst1
  set M := missingChainN st1.labels (entryDepth e) e.relPath.dropLast with hMdef
  have hl1 : st1.labels = st.labels ++ [joinPath e.relPath] := rfl
  have hlen1 : lengthsOk st1 := by
    obtain ⟨g1, g2, g3⟩ := hlen
    refine ⟨?_, ?_, ?_⟩ <;> simp [hst1, g1, g2, g3]
  have hfresh : joinPath e.relPath ∉ st.labels := by
    intro hc
    rcases (mem_labels_iff es st ⟨hlen, hnd, hm⟩ _).mp hc with ⟨e', he', heq⟩ | ⟨q', hq', heq⟩
    · have heq' := joinPath_inj hgc ((hok e' he').2.2.2.2) heq
      exact noPrefix_ne_take (hsep e' he').1 e.relPath.length
        (by rw [List.take_length]; exact heq'.symm)
    · rcases mem_ancFinset.mp hq' with ⟨e', he', hpre⟩
      rcases mem_prefixesOf.mp hpre with ⟨i, hi1, hi2, rfl⟩
      have heq' := joinPath_inj hgc (good_of_anc hok hq').2 heq
      exact noPrefix_ne_take (hsep e' he').2 i heq'
  have hnd1 : st1.labels.Nodup := by
    rw [hl1]
    refine hnd.append (List.nodup_singleton _) ?_
    intro a ha hb
    have hab : a = joinPath e.relPath := by simpa using hb
    exact hfresh (hab ▸ ha)
  have htake : ∀ i, i ≤ entryDepth e → e.relPath.dropLast.take i = e.relPath.take i :=
    fun i hi => take_dropLast _ i hi
  have hpres : ∀ i, 1 ≤ i → i ≤ entryDepth e →
      (joinPath (e.relPath.dropLast.take i) ∈ st1.labels ↔
        e.relPath.take i ∈ ancFinset es) := by
    intro i h1 h2
    have h2' : i ≤ e.relPath.length - 1 := h2
    rw [htake i h2, hl1]
    constructor
    · intro hin
      rcases List.mem_append.mp hin with hin | hin
      · rcases (mem_labels_iff es st ⟨hlen, hnd, hm⟩ _).mp hin with
          ⟨e', he', heq⟩ | ⟨q', hq', heq⟩
        · have heq' := joinPath_inj (hgti i) ((hok e' he').2.2.2.2) heq
          exact absurd heq'.symm (noPrefix_ne_take (hsep e' he').1 i)
        · have heq' := joinPath_inj (hgti i) (good_of_anc hok hq').2 heq
          exact heq' ▸ hq'
      · exfalso
        have heqj : joinPath (e.relPath.take i) = joinPath e.relPath := by simpa using hin
        have heq' := joinPath_inj (hgti i) hgc heqj
        have hl : (e.relPath.take i).length = e.relPath.length := by rw [heq']
        rw [List.length_take] at hl
        omega
    · intro hanc
      exact List.mem_append.mpr (Or.inl
        ((mem_labels_iff es st ⟨hlen, hnd, hm⟩ _).mpr (Or.inr ⟨_, hanc, rfl⟩)))
  have hDC : ∀ i j, 1 ≤ i → i ≤ j → j ≤ entryDepth e →
      joinPath (e.relPath.dropLast.take j) ∈ st1.labels →
      joinPath (e.relPath.dropLast.take i) ∈ st1.labels := by
    intro i j h1 hij hj hin
    have hj' : j ≤ e.relPath.length - 1 := hj
    have hanc := (hpres j (by omega) hj).mp hin
    have hlt : (e.relPath.take j).length = j := by
      rw [List.length_take]; omega
    have hsub : (e.relPath.take j).take i = e.relPath.take i := by
      rw [List.take_take, min_eq_left hij]
    have := anc_closed hanc i h1 (by omega)
    rw [hsub] at this
    exact (hpres i h1 (by omega)).mpr this
  have hMiff : ∀ r, r ∈ M ↔ ∃ i, 1 ≤ i ∧ i ≤ entryDepth e ∧
      r = e.relPath.take i ∧ e.relPath.take i ∉ ancFinset es := by
    intro r
    rw [hMdef, missingChainN_mem_iff st1.labels (entryDepth e) _ hdep hDC r]
    constructor
    · rintro ⟨i, h1, h2, h3, h4⟩
      refine ⟨i, h1, h2, by rw [h3, htake i h2], ?_⟩
      intro hc
      exact h4 ((hpres i h1 h2).mpr hc)
    · rintro ⟨i, h1, h2, h3, h4⟩
      refine ⟨i, h1, h2, by rw [h3, htake i h2], ?_⟩
      intro hc
      exact h4 ((hpres i h1 h2).mp hc)
  have hMnodup : M.Nodup := missingChainN_nodup st1.labels (entryDepth e) _ hdep
  have hanc_new : ancFinset (es ++ [e]) = ancFinset es ∪ M.toFinset := by
    rw [ancFinset_append_single]
    ext q₀
    simp only [Finset.mem_union, List.mem_toFinset]
    constructor
    · rintro (h | h)
      · exact Or.inl h
      · rcases mem_prefixesOf.mp h with ⟨i, h1, h2, rfl⟩
        by_cases hin : e.relPath.take i ∈ ancFinset es
        · exact Or.inl hin
        · exact Or.inr ((hMiff _).mpr ⟨i, h1, h2, rfl, hin⟩)
    · rintro (h | h)
      · exact Or.inl h
      · rcases (hMiff _).mp h with ⟨i, h1, h2, rfl, _⟩
        exact Or.inr (mem_prefixesOf.mpr ⟨i, h1, h2, rfl⟩)
  have hdisj : Disjoint (ancFinset es) M.toFinset := by
    rw [Finset.disjoint_left]
    intro a ha hb
    rcases (hMiff a).mp (List.mem_toFinset.mp hb) with ⟨i, _, _, rfl, hnot⟩
    exact hnot ha
  have hval_anc : (ancFinset (es ++ [e])).val = (ancFinset es).val + ↑M := by
    rw [hanc_new, ← Finset.disjUnion_eq_union _ _ hdisj]
    have hdu : (Finset.disjUnion (ancFinset es) M.toFinset hdisj).val
        = (ancFinset es).val + M.toFinset.val := rfl
    rw [hdu]
    congr 1
    have hval : M.toFinset.val = (M.dedup : Multiset (List String)) := rfl
    rw [hval, List.dedup_eq_self.mpr hMnodup]
  refine ⟨lengthsOk_appendSt st1 M hlen1, ?_, ?_⟩
  · show (st1.labels ++ M.map joinPath).Nodup
    refine hnd1.append ?_ ?_
    · refine hMnodup.map_on ?_
      intro x hx y hy hxy
      rcases (hMiff x).mp hx with ⟨i, _, _, rfl, _⟩
      rcases (hMiff y).mp hy with ⟨j, _, _, rfl, _⟩
      exact joinPath_inj (hgti i) (hgti j) hxy
    · intro a ha hb
      rcases List.mem_map.mp hb with ⟨r, hr, rfl⟩
      rcases missingChainN_shape st1.labels (entryDepth e) _ hdep r
        (hMdef ▸ hr) with ⟨i, _, _, hri, hnotin⟩
      rw [hri] at ha
      exact hnotin ha
  · show (↑(nodes (appendSt st1 M)) : Multiset Node) = _
    rw [nodes_appendSt st1 M hlen1,
      show nodes st1 = nodes st ++ [fileRecord e] from nodes_push_file st e hlen]
    have hsplit : (↑((nodes st ++ [fileRecord e]) ++ M.map dirRecord) : Multiset Node)
        = (↑(nodes st) : Multiset Node) + ↑[fileRecord e] + ↑(M.map dirRecord) := by
      rw [Multiset.coe_add, Multiset.coe_add]
    rw [hsplit, hm, List.map_append, List.map_singleton]
    have hsplit2 : (↑(es.map fileRecord ++ [fileRecord e]) : Multiset Node)
        = (↑(es.map fileRecord) : Multiset Node) + ↑[fileRecord e] := by
      rw [Multiset.coe_add]
    rw [hsplit2, hval_anc, Multiset.map_add, Multiset.map_coe]
    abel

lemma processEntries_append_single (es : List Entry) (e : Entry) :
    processEntries (es ++ [e]) = processEntry (processEntries es) e := by
  simp [processEntries, List.foldl_append]

lemma goodRun_append (es : List Entry) (e : Entry) (h : GoodRun (es ++ [e])) :
    GoodRun es ∧ okEntry e ∧
    ∀ e' ∈ es, NoPrefix e'.relPath e.relPath ∧ NoPrefix e.relPath e'.relPath := by
  obtain ⟨hok, hsep⟩ := h
  rw [SepPaths, List.pairwise_append] at hsep
  obtain ⟨h1, _, h3⟩ := hsep
  exact ⟨⟨fun e' he' => hok e' (List.mem_append.mpr (Or.inl he')), h1⟩,
    hok e (List.mem_append.mpr (Or.inr (List.mem_singleton_self e))),
    fun e' he' => h3 e' he' e (List.mem_singleton_self e)⟩

lemma inv_processEntries (es : List Entry) (h : GoodRun es) :
    Inv es (processEntries es) := by
  induction es using List.reverseRecOn with
  | nil =>
    refine ⟨⟨rfl, rfl, rfl⟩, List.nodup_nil, ?_⟩
    simp [processEntries, initSt, nodes, ancFinset]
  | append_singleton es e ih =>
    obtain ⟨hG, hoke, hsep⟩ := goodRun_append es e h
    rw [processEntries_append_single]
    exact inv_step es e _ (ih hG) hG.1 hoke hsep

/-- C3: a run over N successfully analyzed, prefix-free files yields a
node set with pairwise-distinct labels, consisting of exactly the N file
labels together with one label per distinct ancestor directory, so its
size is N plus the number of distinct ancestors — for every processing
order. -/
theorem node_set_exact_counts (es : List Entry) (h : GoodRun es) :
    (processEntries es).labels.Nodup ∧
    (∀ s, s ∈ (processEntries es).labels ↔
      (∃ e ∈ es, s = joinPath e.relPath) ∨ ∃ q ∈ ancFinset es, s = joinPath q) ∧
    (processEntries es).labels.length = es.length + (ancFinset es).card := by
  have hInv := inv_processEntries es h
  refine ⟨hInv.2.1, fun s => mem_labels_iff es _ hInv s, ?_⟩
  have hc := congrArg Multiset.card (labels_multiset_of_inv es _ hInv)
  simp only [Multiset.coe_card, Multiset.card_add, Multiset.card_map,
    List.length_map] at hc
  rw [hc]
  rfl

/-- Witness for `node_set_exact_counts` at the two-file `proj` tree. -/
theorem node_set_exact_counts_witness :
    GoodRun [eA, eB] ∧
    ((processEntries [eA, eB]).labels.Nodup ∧
     (∀ s, s ∈ (processEntries [eA, eB]).labels ↔
       (∃ e ∈ [eA, eB], s = joinPath e.relPath) ∨
       ∃ q ∈ ancFinset [eA, eB], s = joinPath q) ∧
     (processEntries [eA, eB]).labels.length
       = [eA, eB].length + (ancFinset [eA, eB]).card) :=
  ⟨by decide, node_set_exact_counts [eA, eB] (by decide)⟩

/-- C4: at the end of a run every node whose parent field is nonempty
has exactly one node carrying that label (nodes with empty parents are
roots). -/
theorem parent_resolves_uniquely (es : List Entry) (h : GoodRun es) :
    ∀ pr ∈ (processEntries es).parents, pr ≠ "" →
      (processEntries es).labels.count pr = 1 := by
  intro pr hpr hne
  have hInv := inv_processEntries es h
  have hpm : (processEntries es).parents
      = (nodes (processEntries es)).map (fun r => r.2.1) :=
    (nodes_map_parent _ hInv.1).symm
  rw [hpm] at hpr
  rcases List.mem_map.mp hpr with ⟨r, hr, rfl⟩
  have hrm : r ∈ (↑(nodes (processEntries es)) : Multiset Node) := by simpa using hr
  rw [hInv.2.2] at hrm
  rcases Multiset.mem_add.mp hrm with hrf | hrd
  · rcases List.mem_map.mp (Multiset.mem_coe.mp hrf) with ⟨e', he', rfl⟩
    show (processEntries es).labels.count (joinPath e'.relPath.dropLast) = 1
    have hdne : e'.relPath.dropLast ≠ [] := by
      intro hc
      apply hne
      show joinPath e'.relPath.dropLast = ""
      rw [hc]
      rfl
    have hlz : e'.relPath.dropLast.length ≠ 0 :=
      fun hc => hdne (List.length_eq_zero.mp hc)
    have hlen2 : 2 ≤ e'.relPath.length := by
      simp only [List.length_dropLast] at hlz
      omega
    have hmem : e'.relPath.dropLast ∈ ancFinset es := by
      rw [List.dropLast_eq_take]
      exact anc_take_mem he' (by omega) (by omega)
    exact List.count_eq_one_of_mem hInv.2.1
      ((mem_labels_iff es _ hInv _).mpr (Or.inr ⟨_, hmem, by rw [List.dropLast_eq_take]⟩))
  · rcases Multiset.mem_map.mp hrd with ⟨q', hq', rfl⟩
    have hq'anc : q' ∈ ancFinset es := Finset.mem_val.mp hq'
    show (processEntries es).labels.count (joinPath q'.dropLast) = 1
    have hdne : q'.dropLast ≠ [] := by
      intro hc
      apply hne
      show joinPath q'.dropLast = ""
      rw [hc]
      rfl
    have hlz : q'.dropLast.length ≠ 0 := fun hc => hdne (List.length_eq_zero.mp hc)
    have hlen2 : 2 ≤ q'.length := by
      simp only [List.length_dropLast] at hlz
      omega
    have hmem : q'.dropLast ∈ ancFinset es := by
      rw [List.dropLast_eq_take]
      exact anc_closed hq'anc (q'.length - 1) (by omega) (by omega)
    exact List.count_eq_one_of_mem hInv.2.1
      ((mem_labels_iff es _ hInv _).mpr (Or.inr ⟨_, hmem, by rw [List.dropLast_eq_take]⟩))

/-- Witness for `parent_resolves_uniquely`: the parent `proj` of
`proj/a.c` labels exactly one node. -/
theorem parent_resolves_uniquely_witness :
    GoodRun [eA, eB] ∧ "proj" ∈ (processEntries [eA, eB]).parents ∧
    "proj" ≠ "" ∧ (processEntries [eA, eB]).labels.count "proj" = 1 :=
  ⟨by decide, by decide, by decide,
    parent_resolves_uniquely [eA, eB] (by decide) "proj" (by decide) (by decide)⟩

/-- C5: over any two traversal orders of the same set of analyzed files
the runs produce the same unordered collection of
(label, parent, complexity, lines-of-code) records. -/
theorem traversal_order_independent (es es' : List Entry) (h : GoodRun es)
    (hp : es.Perm es') :
    (↑(nodes (processEntries es)) : Multiset Node)
      = ↑(nodes (processEntries es')) := by
  have hsymm : ∀ {a b : Entry},
      (NoPrefix a.relPath b.relPath ∧ NoPrefix b.relPath a.relPath) →
      (NoPrefix b.relPath a.relPath ∧ NoPrefix a.relPath b.relPath) :=
    fun hab => ⟨hab.2, hab.1⟩
  have h' : GoodRun es' := ⟨fun e he => h.1 e (hp.mem_iff.mpr he),
    (hp.pairwise_iff hsymm).mp h.2⟩
  have hanc : ancFinset es = ancFinset es' := by
    ext q
    simp only [mem_ancFinset]
    constructor
    · rintro ⟨e, he, hq⟩; exact ⟨e, hp.mem_iff.mp he, hq⟩
    · rintro ⟨e, he, hq⟩; exact ⟨e, hp.mem_iff.mpr he, hq⟩
  rw [(inv_processEntries es h).2.2, (inv_processEntries es' h').2.2, hanc]
  congr 1
  exact Multiset.coe_eq_coe.mpr (hp.map fileRecord)

/-- Witness for `traversal_order_independent`: the two orders of the
`proj` example tree yield equal node multisets. -/
theorem traversal_order_independent_witness :
    GoodRun [eA, eB] ∧ [eA, eB].Perm [eB, eA] ∧
    (↑(nodes (processEntries [eA, eB])) : Multiset Node)
      = ↑(nodes (processEntries [eB, eA])) :=
  ⟨by decide, by decide,
    traversal_order_independent [eA, eB] [eB, eA] (by decide) (by decide)⟩

end Cyclo
